import Mathlib

/-!
Shallow embedding of the golo fixer (golo/fixer.go and the Runner) over
lists of characters.  Byte slices become `List Char` (the repository's
sources are ASCII, where Go's rune-wise `IndexFunc` scans and byte-wise
scans agree), `token.Pos` becomes `Int` with `token.NoPos` rendered as an
`Option` that is `none`, Go maps become association lists, and the external
collaborators (go parser, package loader, compiler, file system) become
oracle parameters.  Runtime panics (nil dereference, slice out of range)
are rendered as `none` of an `Option` result.
-/

namespace Golo

/-- Overlay map from file name to patched content, as in `Fixer.Fixed`. -/
def OMap := List (String × List Char)

instance : DecidableEq OMap := by
  unfold OMap
  infer_instance

/-- Go map read `m[k]` returning whether the key is present. -/
def mapGet : OMap → String → Option (List Char)
  | [], _ => none
  | (k', v') :: rest, k => if k' = k then some v' else mapGet rest k

/-- Go map write `m[k] = v`: replaces the binding if present, else adds it. -/
def mapSet : OMap → String → List Char → OMap
  | [], k, v => [(k, v)]
  | (k', v') :: rest, k, v =>
    if k' = k then (k, v) :: rest else (k', v') :: mapSet rest k v

/-- Whether `pat` occurs at the head of `s` (strings as char lists). -/
def leadsWith : List Char → List Char → Bool
  | [], _ => true
  | _ :: _, [] => false
  | p :: ps, c :: cs => p = c && leadsWith ps cs

/-- `strings.Contains s pat` on char lists. -/
def containsSeq (s pat : List Char) : Bool :=
  (List.range (s.length + 1)).any (fun i => leadsWith pat (s.drop i))

/-- A line-break character in the sense of `newLinesInRange`. -/
def isNl (c : Char) : Bool := c = '\n' || c = '\r'

/-- `newLinesInRange` from fixer.go: keeps exactly the characters
that are `'\n'` or `'\r'`, in order. -/
def newLinesInRange (s : List Char) : List Char :=
  s.filter isNl

/-- Number of line-break characters in a text. -/
def countLineBreaks (s : List Char) : Nat :=
  (s.filter isNl).length

/-- Models Go's quoting of one character inside `fmt.Sprintf "%#v"` of a
string (strconv.Quote): standard escapes for quote, backslash, newline,
carriage return and tab, other characters unchanged.  Go additionally
hex-escapes non-printables; no quoting form emits a raw line break, which
is the only property the development relies on beyond plain ASCII. -/
def quoteChar (c : Char) : List Char :=
  if c = '"' then ['\\', '"']
  else if c = '\\' then ['\\', '\\']
  else if c = '\n' then ['\\', 'n']
  else if c = '\r' then ['\\', 'r']
  else if c = '\t' then ['\\', 't']
  else [c]

/-- Models `fmt.Sprintf "%#v" msg` for a string value. -/
def goQuote (s : List Char) : List Char :=
  '"' :: (s.flatMap quoteChar) ++ ['"']

/-- Go token kinds the fixer inspects (`token.IMPORT`, `token.DEFINE`,
anything else). -/
inductive GoTok where
  | timport
  | tdefine
  | tother
deriving DecidableEq, Repr

/-- `ast.ImportSpec`: optional explicit local name (its `[Pos, End)`) and
the path literal's `[Pos, End)`. -/
structure ImportSpec where
  name : Option (Int × Int)
  pathPos : Int
  pathEnd : Int
deriving DecidableEq, Repr

/-- The fragment of `go/ast` the fixer touches.  `blockStmt` keeps
`Lbrace`, the statement list and `Rbrace` (`none` = `token.NoPos`);
`funcDecl` keeps the `func` keyword position and its body (a `blockStmt`);
`genDecl` keeps its token, span and import specs (its spec subtrees hold
no statements or blocks, so they are leaves for the traversals below);
`assignStmt` keeps span, token and token position; `stmt`/`expr` are the
remaining statements/expressions with their spans and children;
`ident` is an identifier with its span. -/
inductive Node where
  | blockStmt (lbrace : Int) (list : List Node) (rbrace : Option Int)
  | funcDecl (pos : Int) (body : Node)
  | genDecl (tok : GoTok) (pos pend : Int) (specs : List ImportSpec)
  | assignStmt (pos pend : Int) (tok : GoTok) (tokPos : Int) (children : List Node)
  | stmt (pos pend : Int) (children : List Node)
  | expr (pos pend : Int) (children : List Node)
  | ident (pos pend : Int)
deriving Repr

/-- `ast.File`: `FileStart`, the file node's own span (`Pos()` is the
`package` keyword, `End()` the end of the last declaration) and the
declarations. -/
structure File where
  fileStart : Int
  pos : Int
  pend : Int
  decls : List Node
deriving Repr

/-- `Node.Pos()`. -/
def nodePos : Node → Int
  | .blockStmt lb _ _ => lb
  | .funcDecl p _ => p
  | .genDecl _ p _ _ => p
  | .assignStmt p _ _ _ _ => p
  | .stmt p _ _ => p
  | .expr p _ _ => p
  | .ident p _ => p

mutual

/-- `Node.End()`; for a block with invalid `Rbrace` this is the end of the
last statement (or `Lbrace+1` when empty), as in `go/ast`. -/
def nodeEnd : Node → Int
  | .blockStmt lb l rb =>
    match rb with
    | some r => r + 1
    | none => endList l (lb + 1)
  | .funcDecl _ b => nodeEnd b
  | .genDecl _ _ e _ => e
  | .assignStmt _ e _ _ _ => e
  | .stmt _ e _ => e
  | .expr _ e _ => e
  | .ident _ e => e

/-- End position of the last node of a list, with a default. -/
def endList : List Node → Int → Int
  | [], d => d
  | [x], _ => nodeEnd x
  | _ :: xs, d => endList xs d

end

/-- `Rbrace.IsValid()` of a block node. -/
def rbValid : Node → Bool
  | .blockStmt _ _ rb => rb.isSome
  | _ => false

/-- Statement list of a block node. -/
def blockList : Node → List Node
  | .blockStmt _ l _ => l
  | _ => []

mutual

/-- Structural node equality, standing in for Go pointer equality (real
parse trees give distinct nodes distinct positions, so the two agree). -/
def nodeBEq : Node → Node → Bool
  | .blockStmt a l r, .blockStmt a' l' r' => a = a' && nodeListBEq l l' && r = r'
  | .funcDecl p b, .funcDecl p' b' => p = p' && nodeBEq b b'
  | .genDecl t p e s, .genDecl t' p' e' s' => t = t' && p = p' && e = e' && s = s'
  | .assignStmt p e t tp c, .assignStmt p' e' t' tp' c' =>
    p = p' && e = e' && t = t' && tp = tp' && nodeListBEq c c'
  | .stmt p e c, .stmt p' e' c' => p = p' && e = e' && nodeListBEq c c'
  | .expr p e c, .expr p' e' c' => p = p' && e = e' && nodeListBEq c c'
  | .ident p e, .ident p' e' => p = p' && e = e'
  | _, _ => false

/-- Pointwise `nodeBEq` on lists. -/
def nodeListBEq : List Node → List Node → Bool
  | [], [] => true
  | a :: as, b :: bs => nodeBEq a b && nodeListBEq as bs
  | _, _ => false

end

/-- Accumulator of `findEnclosing`'s `astutil.Apply` traversal:
nearest statement, block and function body seen so far. -/
structure ESt where
  stmt : Option Node
  block : Option Node
  fnBody : Option Node
deriving Repr

/-- `block == c.Parent()` of the statement case (Go pointer comparison;
the parent of a top-level declaration is the file, rendered `none`). -/
def parentIsBlock (s : ESt) (parent : Option Node) : Bool :=
  match s.block, parent with
  | some b, some pn => nodeBEq b pn
  | _, _ => false

/-- The pre-hook state update of `findEnclosing`: a block whose end is at
or past `p` or whose `Rbrace` is invalid becomes the current block; a
function declaration under the same rule contributes its body; a statement
whose parent is the current block becomes the current statement. -/
def encUpd (p : Int) (parent : Option Node) (s : ESt) (n : Node) : ESt :=
  match n with
  | .blockStmt _ _ rb =>
    if nodeEnd n ≥ p || rb.isNone then { s with block := some n } else s
  | .funcDecl _ b =>
    if nodeEnd n ≥ p || !(rbValid b) then { s with fnBody := some b } else s
  | .assignStmt _ _ _ _ _ =>
    if parentIsBlock s parent then { s with stmt := some n } else s
  | .stmt _ _ _ =>
    if parentIsBlock s parent then { s with stmt := some n } else s
  | _ => s

/-- The post-hook of `findEnclosing`: traversal continues unless the node
just finished is the current block. -/
def encPost (s : ESt) (n : Node) : Bool :=
  match s.block with
  | some b => !(nodeBEq b n)
  | none => true

mutual

/-- One node of the `astutil.Apply` walk of `findEnclosing`.  Nodes
starting after `p` are skipped (children unvisited, no post hook); the
returned flag is false once the post hook aborts the traversal. -/
def encWalk (p : Int) (parent : Option Node) (s : ESt) (n : Node) : ESt × Bool :=
  if nodePos n > p then (s, true)
  else
    let s1 := encUpd p parent s n
    let r :=
      match n with
      | .blockStmt _ l _ => encWalkList p (some n) s1 l
      | .funcDecl _ b => encWalk p (some n) s1 b
      | .assignStmt _ _ _ _ ch => encWalkList p (some n) s1 ch
      | .stmt _ _ ch => encWalkList p (some n) s1 ch
      | .expr _ _ ch => encWalkList p (some n) s1 ch
      | _ => (s1, true)
    if r.2 then (r.1, encPost r.1 n) else (r.1, false)

/-- Source-order walk of a sibling list, stopping once aborted. -/
def encWalkList (p : Int) (parent : Option Node) (s : ESt) :
    List Node → ESt × Bool
  | [] => (s, true)
  | n :: rest =>
    let r := encWalk p parent s n
    if r.2 then encWalkList p parent r.1 rest else r

end

/-- `findEnclosing` from fixer.go: statement, block and function body
enclosing position `p`. -/
def findEnclosing (file : File) (p : Int) :
    Option Node × Option Node × Option Node :=
  if file.pos > p then (none, none, none)
  else
    let r := encWalkList p none ⟨none, none, none⟩ file.decls
    (r.1.stmt, r.1.block, r.1.fnBody)

/-- The delimiter set `"}fvct/"` of `findRangeToFix`'s forward scan. -/
def fwdDelims : List Char := ['\x7d', 'f', 'v', 'c', 't', '/']

/-- `bytes.IndexFunc` of `findRangeToFix`'s forward scan: index of the
first delimiter character that immediately follows a line break, threading
the `wasNewline` state exactly as the Go closure does. -/
def fwdScan : List Char → Bool → Option Nat
  | [], _ => none
  | c :: rest, wasNl =>
    if c ∈ fwdDelims then
      if wasNl then some 0 else (fwdScan rest wasNl).map (· + 1)
    else (fwdScan rest (isNl c)).map (· + 1)

/-- `bytes.LastIndexFunc` of the backward scan, on the reversed text:
index from the end of the first `'\x7d'` whose right neighbour (already
visited) was a line break. -/
def backScanRev : List Char → Bool → Option Nat
  | [], _ => none
  | c :: rest, wasNl =>
    if c = '\x7d' then
      if wasNl then some 0 else (backScanRev rest wasNl).map (· + 1)
    else (backScanRev rest (isNl c)).map (· + 1)

/-- The statement re-selection loop of `findRangeToFix`: the last direct
child of the function body starting strictly before `p`, stopping at the
first that does not. -/
def reselect (p : Int) (s : Node) : List Node → Node
  | [] => s
  | t :: rest => if nodePos t < p then reselect p t rest else s

/-- The part of `findRangeToFix` below the valid-closing-brace branch:
nil checks, statement re-selection, forward scan for a line-leading
delimiter or declaration start, backward scan for a line-closing brace,
and the synthesized-brace fallback.  `none` models the Go panics
(slicing `content[start:]` out of range, `tail[:-1]` on an empty tail). -/
def frtfRest (file : File) (content : List Char) (p : Int)
    (st blk fnB : Option Node) : Option (Int × Int × List Char) :=
  match fnB, st with
  | none, _ => some (0, 0, [])
  | some _, none => some (0, 0, [])
  | some fb, some s0 =>
    let s1 :=
      if (match blk with | some b => nodeBEq b fb | none => false) then s0
      else reselect p s0 (blockList fb)
    let start : Int := nodePos s1 - file.fileStart
    if start < 0 ∨ (content.length : Int) < start then none
    else
      let tail := content.drop start.toNat
      let back := fun (e : Nat) =>
        match (backScanRev ((tail.take e).reverse) false).map (fun j => e - 1 - j) with
        | some cb => some (start, start + (cb : Int), ([] : List Char))
        | none => some (start, start + (e : Int), ['\x7d'])
      match fwdScan tail false with
      | some e =>
        if tail.get? e = some '\x7d' then some (start, start + (e : Int), [])
        else back e
      | none =>
        if tail.length = 0 then none
        else back (tail.length - 1)

/-- `findRangeToFix` from fixer.go.  The result is `(start, end, tail)` in
byte offsets; `none` models a runtime panic (in particular the nil
statement dereference of the valid-closing-brace branch). -/
def findRangeToFix (file : File) (content : List Char) (offset : Nat) :
    Option (Int × Int × List Char) :=
  let p : Int := file.fileStart + offset
  let r := findEnclosing file p
  match r.2.1 with
  | some b =>
    if rbValid b then
      match r.1 with
      | some s => some (nodePos s - file.fileStart, nodeEnd b - file.fileStart - 1, [])
      | none => none
    else frtfRest file content p r.1 r.2.1 r.2.2
  | none => frtfRest file content p r.1 r.2.1 r.2.2

/-- `Fixer.update`: joins the pieces and stores them under `filename`,
always reporting `true`. -/
def update (m : OMap) (filename : String) (pieces : List (List Char)) :
    Bool × OMap :=
  (true, mapSet m filename pieces.flatten)

/-- `ImportSpec.Pos()`: the explicit name's position if present, else the
path's. -/
def specPos (s : ImportSpec) : Int :=
  match s.name with
  | some (p, _) => p
  | none => s.pathPos

/-- `ImportSpec.End()`: the path's end. -/
def specEnd (s : ImportSpec) : Int := s.pathEnd

/-- `fixUnusedImport` from fixer.go: first declaration covering the
position (must be an import `GenDecl`), first spec covering it, then the
local name (plus the byte after it) — or the point just before the path —
is replaced by / receives the two characters `"_ "`.  `none` models a
slice-bounds panic. -/
def fixUnusedImport (m : OMap) (file : File) (filename : String)
    (content : List Char) (offset : Nat) : Option (Bool × OMap) :=
  let pos : Int := file.fileStart + offset
  match file.decls.find? (fun d => nodePos d ≤ pos ∧ pos ≤ nodeEnd d) with
  | none => some (false, m)
  | some d =>
    match d with
    | .genDecl tok _ _ specs =>
      if tok ≠ .timport then some (false, m)
      else
        match specs.find? (fun sp => specPos sp ≤ pos ∧ pos ≤ specEnd sp) with
        | none => some (false, m)
        | some sp =>
          let ip : Int :=
            match sp.name with
            | some (np, _) => np - file.fileStart
            | none => sp.pathPos - file.fileStart
          let dl : Int :=
            match sp.name with
            | some (np, ne) => ne - np + 1
            | none => 0
          if ip < 0 ∨ (content.length : Int) < ip + dl then none
          else
            some (update m filename
              [content.take ip.toNat, ['_', ' '], content.drop (ip + dl).toNat])
    | _ => some (false, m)

/-- Whether a node is an `*ast.Ident`. -/
def isIdent : Node → Bool
  | .ident _ _ => true
  | _ => false

/-- Whether a node is an `*ast.AssignStmt`. -/
def isAssign : Node → Bool
  | .assignStmt _ _ _ _ _ => true
  | _ => false

mutual

/-- The `astutil.Apply` search of `fixUnusedVar` / `fixUselessAssignment`:
the pre-hook records any node covering `p` selected by `sel`, and returns
false (skipping children) once something is recorded. -/
def coverWalk (sel : Node → Bool) (p : Int) (found : Option Node) (n : Node) :
    Option Node :=
  let f1 := if nodePos n ≤ p ∧ p ≤ nodeEnd n ∧ sel n then some n else found
  if f1.isSome then f1
  else
    match n with
    | .blockStmt _ l _ => coverWalkList sel p f1 l
    | .funcDecl _ b => coverWalk sel p f1 b
    | .assignStmt _ _ _ _ ch => coverWalkList sel p f1 ch
    | .stmt _ _ ch => coverWalkList sel p f1 ch
    | .expr _ _ ch => coverWalkList sel p f1 ch
    | _ => f1

/-- Sibling-list traversal of `coverWalk`. -/
def coverWalkList (sel : Node → Bool) (p : Int) (found : Option Node) :
    List Node → Option Node
  | [] => found
  | n :: rest => coverWalkList sel p (coverWalk sel p found n) rest

end

/-- `coverWalk` started at the file's declarations. -/
def findCover (sel : Node → Bool) (file : File) (p : Int) : Option Node :=
  coverWalkList sel p none file.decls

/-- `fixUnusedVar` from fixer.go: the identifier covering the position is
rewritten in place to `"_"`.  `none` models a slice-bounds panic. -/
def fixUnusedVar (m : OMap) (file : File) (filename : String)
    (content : List Char) (offset : Nat) : Option (Bool × OMap) :=
  let pos : Int := file.fileStart + offset
  match findCover isIdent file pos with
  | none => some (false, m)
  | some id =>
    let ip : Int := nodePos id - file.fileStart
    let dl : Int := nodeEnd id - nodePos id
    if ip < 0 ∨ (content.length : Int) < ip + dl then none
    else
      some (update m filename
        [content.take ip.toNat, ['_'], content.drop (ip + dl).toNat])

/-- `fixUselessAssignment` from fixer.go: for a `:=` assignment covering
the position, the one character at the token position (the colon) is
deleted, turning `:=` into `=`.  `none` models a slice-bounds panic. -/
def fixUselessAssignment (m : OMap) (file : File) (filename : String)
    (content : List Char) (offset : Nat) : Option (Bool × OMap) :=
  let pos : Int := file.fileStart + offset
  match findCover isAssign file pos with
  | some (.assignStmt _ _ tok tokPos _) =>
    if tok ≠ .tdefine then some (false, m)
    else
      let to_ : Int := tokPos - file.fileStart
      if to_ < 0 ∨ (content.length : Int) < to_ + 1 then none
      else
        some (update m filename
          [content.take to_.toNat, content.drop (to_ + 1).toNat])
  | _ => some (false, m)

/-- The three diagnostic substrings fixError handles structurally. -/
def msgUnusedImport : List Char := "imported and not used".toList

/-- Diagnostic substring for an unused declared value. -/
def msgUnusedVar : List Char := "declared and not used".toList

/-- Diagnostic substring for a `:=` with no new variables. -/
def msgUselessAssign : List Char := "no new variables on left side of :=".toList

/-- Go slice `content[a:b]` for `0 ≤ a ≤ b ≤ len content`. -/
def sliceCC (content : List Char) (a b : Int) : List Char :=
  (content.take b.toNat).drop a.toNat

/-- The deferred-fault statement text: `"panic(" + %#v msg + ")"`. -/
def panicText (msg : List Char) : List Char :=
  "panic(".toList ++ goQuote msg ++ ")".toList

/-- `fixError` from fixer.go: dispatch on the three structurally fixed
diagnostics, otherwise resolve the range, bail (`false`) on an empty range
or one missing the offset, and otherwise replace the range with its line
breaks around a panic carrying the message, re-inserting the tail.
`none` models a runtime panic inside range resolution or slicing. -/
def fixError (m : OMap) (file : File) (filename : String)
    (content : List Char) (offset : Nat) (msg : List Char) :
    Option (Bool × OMap) :=
  if containsSeq msg msgUnusedImport then
    fixUnusedImport m file filename content offset
  else if containsSeq msg msgUnusedVar then
    fixUnusedVar m file filename content offset
  else if containsSeq msg msgUselessAssign then
    fixUselessAssignment m file filename content offset
  else
    match findRangeToFix file content offset with
    | none => none
    | some (start, e, tail) =>
      if start = e then some (false, m)
      else if start > (offset : Int) ∨ e < (offset : Int) then some (false, m)
      else if start < 0 ∨ (content.length : Int) < e then none
      else
        let newCode :=
          newLinesInRange (sliceCC content start offset) ++ panicText msg ++
            newLinesInRange (sliceCC content offset e)
        some (update m filename
          [content.take start.toNat, newCode, tail, content.drop e.toNat])

/-- A `scanner.Error`: byte offset and message. -/
structure ScanErr where
  offset : Nat
  msg : List Char
deriving Repr

/-- Result of one `parser.ParseFile` invocation (external collaborator):
the (possibly partial) file, and `none` on success or the reported
`scanner.ErrorList` on failure (a failure that is not an `ErrorList`
behaves exactly like an empty list in `Fixer.parseFile`, and is modelled
as such). -/
structure ParseOut where
  file : File
  perr : Option (List ScanErr)

/-- Outcome of `Fixer.parseFile`: success, surfaced parse failure, or a
runtime fault inside `fixError`. -/
inductive PFRes where
  | ok (f : File) (m : OMap)
  | fail (f : File) (errs : List ScanErr) (m : OMap)
  | fault

/-- `Fixer.parseFile`'s retry loop with the remaining iteration budget as
fuel; entered with fuel 10, so that fuel 1 corresponds to `i >= 10`.
Also returns the number of parse attempts made. -/
def parseFileAux (parse : List Char → ParseOut) (filename : String) :
    Nat → OMap → List Char → PFRes × Nat
  | 0, _, _ => (.fault, 0)
  | fuel + 1, m, content =>
    let out := parse content
    match out.perr with
    | none => (.ok out.file m, 1)
    | some errs =>
      match errs with
      | [] => (.fail out.file [] m, 1)
      | e :: rest =>
        if fuel = 0 then (.fail out.file (e :: rest) m, 1)
        else
          match fixError m out.file filename content e.offset e.msg with
          | none => (.fault, 1)
          | some (false, m') => (.fail out.file (e :: rest) m', 1)
          | some (true, m') =>
            let content' := (mapGet m' filename).getD []
            let r := parseFileAux parse filename fuel m' content'
            (r.1, r.2 + 1)

/-- `Fixer.parseFile`: at most 10 parse attempts. -/
def parseFileRun (parse : List Char → ParseOut) (filename : String)
    (m : OMap) (content : List Char) : PFRes × Nat :=
  parseFileAux parse filename 10 m content

/-- A type error as `Fixer.fixPkg` consumes it: the unadjusted position
(file name and byte offset, plus the global `token.Pos`), the message, and
the line-directive-adjusted position used for toolchain-generated (CGO)
sources. -/
structure TypeErr where
  filename : String
  pos : Int
  offset : Nat
  msg : List Char
  adjFile : String
  adjLine : Nat
  adjCol : Nat
deriving Repr

/-- A loaded package: its syntax trees and reported type errors. -/
structure Pkg where
  syntax_ : List File
  typeErrors : List TypeErr

/-- External collaborators of the package fixer: the file system
(`os.ReadFile`), the Go cache directory (`goCache()`), and the parser used
to re-parse original sources in the CGO branch. -/
structure Env where
  fs : String → Option (List Char)
  cacheDir : String
  reparse : String → List Char → Option File

/-- Outcome of an operation that can also fail with an I/O error or
panic. -/
inductive Res (α : Type) where
  | ok (a : α)
  | ioErr
  | fault
deriving DecidableEq

/-- `Fixer.readFile`: overlay first, then the file system. -/
def readFile (m : OMap) (env : Env) (filename : String) :
    Option (List Char) :=
  match mapGet m filename with
  | some v => some v
  | none => env.fs filename

/-- The manual line/column → offset scan of `fixPkg`'s CGO branch; `none`
when the loop runs off the end (in which case `fixPkg` keeps the
unadjusted offset). -/
def scanLineCol (content : List Char) (line col : Nat) : Option Nat :=
  go content 0 1 0
where
  go : List Char → Nat → Nat → Nat → Option Nat
    | [], _, _, _ => none
    | b :: rest, i, lno, cno =>
      if b = '\n' then go rest (i + 1) (lno + 1) cno
      else if lno = line then
        if cno + 1 = col then some i else go rest (i + 1) lno (cno + 1)
      else go rest (i + 1) lno cno

/-- The last syntax tree whose span covers the error position, as the
`for _, ast := range pkg.Syntax` loop selects it. -/
def selectFile (syn : List File) (p : Int) : Option File :=
  syn.foldl (fun acc f => if f.pos ≤ p ∧ p ≤ f.pend then some f else acc) none

/-- `Fixer.fixPkg`: handles only the first reported type error; for
errors reported against toolchain-generated sources (path under the Go
cache) it re-derives the offset from the adjusted line/column against the
original content and re-parses that content.  `fault` models the nil
dereferences `fixPkg` can hit when no syntax tree covers the error. -/
def fixPkg (env : Env) (pkg : Pkg) (m : OMap) : Res (Bool × OMap) :=
  match pkg.typeErrors with
  | [] => .ok (false, m)
  | e :: _ =>
    let fileSel := selectFile pkg.syntax_ e.pos
    if leadsWith env.cacheDir.toList e.filename.toList then
      match readFile m env e.adjFile with
      | none => .ioErr
      | some content =>
        let off := (scanLineCol content e.adjLine e.adjCol).getD e.offset
        match env.reparse e.adjFile content with
        | none => .ok (false, m)
        | some file2 =>
          match fixError m file2 e.adjFile content off e.msg with
          | none => .fault
          | some (b, m') => .ok (b, m')
    else
      match readFile m env e.filename with
      | none => .ioErr
      | some content =>
        match fileSel with
        | none => .fault
        | some file =>
          match fixError m file e.filename content e.offset e.msg with
          | none => .fault
          | some (b, m') => .ok (b, m')

/-- One pass of `Fixer.Fix` over the loaded packages, accumulating
whether any package was fixed. -/
def fixPkgs (env : Env) : List Pkg → Bool → OMap → Res (Bool × OMap)
  | [], fixed, m => .ok (fixed, m)
  | p :: rest, fixed, m =>
    match fixPkg env p m with
    | .ok (f, m') => fixPkgs env rest (fixed || f) m'
    | .ioErr => .ioErr
    | .fault => .fault

/-- The `for i := 0; i < 10` pass loop of `Fixer.Fix`, with the load of a
compilation unit (`packages.Load`, whose `ParseFile` hook may itself
patch the overlay) as an oracle from the current overlay to the loaded
packages and the possibly-updated overlay.  Returns the final overlay and
the number of passes (loads) performed. -/
def fixLoop (env : Env) (load : OMap → List Pkg × OMap) :
    Nat → OMap → Res OMap × Nat
  | 0, m => (.ok m, 0)
  | fuel + 1, m =>
    let l := load m
    match fixPkgs env l.1 false l.2 with
    | .ioErr => (.ioErr, 1)
    | .fault => (.fault, 1)
    | .ok (fixed, m2) =>
      if fixed then
        let r := fixLoop env load fuel m2
        (r.1, r.2 + 1)
      else (.ok m2, 1)

/-- `Fixer.Fix`: at most 10 passes. -/
def fixRun (env : Env) (load : OMap → List Pkg × OMap) (m : OMap) :
    Res OMap × Nat :=
  fixLoop env load 10 m

/-- The marking loop of `Runner.Prepare` over one broken-unit report:
`none` when some unit was already marked attempted (the loop gives up),
otherwise the enlarged attempted set (new units marked in order). -/
def markScan (attempted : List String) : List String → Option (List String)
  | [] => some attempted
  | p :: rest =>
    if p ∈ attempted then none else markScan (p :: attempted) rest

/-- Outcome of `Runner.Prepare`'s build loop: built successfully, gave up
(leaving `built` false), or ran out of the modelling fuel. -/
inductive PrepRes where
  | builtOk
  | givenUp
  | timedOut
deriving DecidableEq, Repr

/-- `Runner.Prepare`'s `for {}` loop, with the i-th build's broken-unit
report as an oracle stream; fuel only bounds the model's recursion and is
shown never to run out for reports drawn from a finite name set. -/
def prepareRun (reports : Nat → List String) :
    Nat → Nat → List String → PrepRes
  | 0, _, _ => .timedOut
  | fuel + 1, i, attempted =>
    let toFix := reports i
    if toFix = [] then .builtOk
    else
      match markScan attempted toFix with
      | none => .givenUp
      | some attempted' => prepareRun reports fuel (i + 1) attempted'

/-- The process `Runner.Run` decides to execute. -/
inductive RunAct where
  | realGo (args : List String)
  | execExe (exe : String) (args : List String)
  | goTest (args : List String)
  | goBuild (args : List String)
  | unsupported
deriving DecidableEq, Repr

/-- `Runner.Run`'s dispatch: with `built` false the genuine toolchain is
re-invoked with no overlay; otherwise the built binary / `go test` /
`go build` (with the overlay flag when one exists) runs. -/
def runGo (built : Bool) (mode : String) (buildArgs runArgs : List String)
    (overlayFile : Option String) (exeFile : String) : RunAct :=
  if !built then .realGo (mode :: (buildArgs ++ runArgs))
  else if mode = "run" then .execExe exeFile runArgs
  else if mode = "test" then
    .goTest
      (match overlayFile with
       | some ov => ["-vet=off", "-overlay=" ++ ov] ++ buildArgs
       | none => buildArgs)
  else if mode = "build" then
    .goBuild
      (match overlayFile with
       | some ov => ["-overlay=" ++ ov] ++ buildArgs
       | none => buildArgs)
  else .unsupported

/-! Concrete fixtures: small Go files with the syntax trees the Go parser
produces for them (positions are 1-based `token.Pos` with `FileStart` 1,
as for the first file of a `token.FileSet`). -/

/-- Source with two functions, each containing one undefined identifier:
`package main`, `func f() { x }`, `func g() { y }` on separate lines. -/
def contentFG : List Char :=
  "package main\n\nfunc f() \x7b\n\tx\n\x7d\n\nfunc g() \x7b\n\ty\n\x7d\n".toList

/-- Syntax tree of `contentFG`. -/
def fgFile : File :=
  { fileStart := 1, pos := 1, pend := 47,
    decls :=
      [ .funcDecl 15 (.blockStmt 24 [.stmt 27 28 [.ident 27 28]] (some 29)),
        .funcDecl 32 (.blockStmt 41 [.stmt 44 45 [.ident 44 45]] (some 46)) ] }

/-- `contentFG` after the deferred-fault patch for the error at offset 26
(`x`). -/
def contentFG1 : List Char :=
  "package main\n\nfunc f() \x7b\n\tpanic(\"undefined: x\")\n\x7d\n\nfunc g() \x7b\n\ty\n\x7d\n".toList

/-- Source with an empty function body: `package main`,
`func main() {` and `}` on separate lines. -/
def contentEB : List Char := "package main\nfunc main() \x7b\n\x7d\n".toList

/-- Syntax tree of `contentEB`: one function whose valid body block holds
no statements. -/
def ebFile : File :=
  { fileStart := 1, pos := 1, pend := 29,
    decls := [ .funcDecl 14 (.blockStmt 26 [] (some 28)) ] }

/-- The `noclosebrace` fixture of the repository's own test suite:
`package main`, then `func main() { fmt.Println("oops` with no closing
brace before end of file. -/
def contentNC : List Char :=
  "package main\nfunc main() \x7b fmt.Println(\"oops\n\n".toList

/-- Partial syntax tree of `contentNC`: body block with invalid `Rbrace`
holding one expression statement. -/
def ncFile : File :=
  { fileStart := 1, pos := 1, pend := 46,
    decls := [ .funcDecl 14 (.blockStmt 26 [.stmt 28 45 []] none) ] }

/-- Source with an explicitly named, unused import:
`package main`, `import foo "fmt"`, `func main() {}`. -/
def contentIM : List Char :=
  "package main\n\nimport foo \"fmt\"\n\nfunc main() \x7b\x7d\n".toList

/-- Syntax tree of `contentIM`: the import spec's local name `foo` spans
positions `[22, 25)`, its path `[26, 31)`. -/
def imFile : File :=
  { fileStart := 1, pos := 1, pend := 47,
    decls :=
      [ .genDecl .timport 15 31 [⟨some (22, 25), 26, 31⟩],
        .funcDecl 33 (.blockStmt 45 [] (some 46)) ] }

/-- `contentIM` as the fixer actually rewrites it: the explicit name is
replaced by the blank identifier, giving `import _ "fmt"`. -/
def contentIMFixed : List Char :=
  "package main\n\nimport _ \"fmt\"\n\nfunc main() \x7b\x7d\n".toList

/-- Type error at `x` in `contentFG`. -/
def errX : TypeErr :=
  { filename := "a.go", pos := 27, offset := 26,
    msg := "undefined: x".toList, adjFile := "", adjLine := 0, adjCol := 0 }

/-- Type error at `y` in `contentFG`. -/
def errY : TypeErr :=
  { filename := "a.go", pos := 44, offset := 43,
    msg := "undefined: y".toList, adjFile := "", adjLine := 0, adjCol := 0 }

/-- Environment whose file system serves `contentFG` for `a.go`, with a
cache directory no source path lies under. -/
def envFG : Env :=
  { fs := fun fn => if fn = "a.go" then some contentFG else none,
    cacheDir := "/gocache/", reparse := fun _ _ => none }

/-- The package for `contentFG` reporting both type errors. -/
def pkgFG2 : Pkg := { syntax_ := [fgFile], typeErrors := [errX, errY] }

/-- The package for `contentFG` reporting only the first type error. -/
def pkgFG1 : Pkg := { syntax_ := [fgFile], typeErrors := [errX] }

/-! Helper lemmas. -/

/-- Reading back the key just written. -/
theorem mapGet_mapSet_self (m : OMap) (k : String) (v : List Char) :
    mapGet (mapSet m k v) k = some v := by
  induction m with
  | nil => simp [mapSet, mapGet]
  | cons kv rest ih =>
    obtain ⟨k', v'⟩ := kv
    by_cases h : k' = k
    · subst h
      simp [mapSet, mapGet]
    · simp [mapSet, mapGet, h, ih]

/-- Writing one key leaves every other key's binding unchanged. -/
theorem mapGet_mapSet_ne (m : OMap) (k k' : String) (v : List Char)
    (h : k' ≠ k) : mapGet (mapSet m k v) k' = mapGet m k' := by
  induction m with
  | nil => simp [mapSet, mapGet, Ne.symm h]
  | cons kv rest ih =>
    obtain ⟨k0, v0⟩ := kv
    by_cases h0 : k0 = k
    · subst h0
      simp [mapSet, mapGet, h, Ne.symm h]
    · simp [mapSet, mapGet, h0, ih]

/-- `newLinesInRange` keeps exactly the line-break characters, so it
preserves their count. -/
theorem countLineBreaks_newLinesInRange (s : List Char) :
    countLineBreaks (newLinesInRange s) = countLineBreaks s := by
  simp [countLineBreaks, newLinesInRange, List.filter_filter]

/-- One quoted character never contains a raw line break. -/
theorem filter_isNl_quoteChar (c : Char) :
    (quoteChar c).filter isNl = [] := by
  unfold quoteChar
  split
  · rfl
  · split
    · rfl
    · split
      · rfl
      · split
        · rfl
        · split
          · rfl
          · rename_i h1 h2 h3 h4 h5
            simp [isNl, h3, h4]

/-- The quoted message contains no raw line break. -/
theorem filter_isNl_goQuote (msg : List Char) :
    (goQuote msg).filter isNl = [] := by
  unfold goQuote
  simp only [List.filter_cons, List.filter_append]
  have hq : isNl '"' = false := by decide
  rw [hq]
  have h : (msg.flatMap quoteChar).filter isNl = [] := by
    induction msg with
    | nil => rfl
    | cons c rest ih =>
      simp [List.flatMap_cons, List.filter_append, filter_isNl_quoteChar, ih]
  simp [h]

/-- The deferred-fault statement text contains no line break, so every
line break of the replacement text comes from the preserved newline
runs. -/
theorem countLineBreaks_panicText (msg : List Char) :
    countLineBreaks (panicText msg) = 0 := by
  unfold panicText countLineBreaks
  simp only [List.filter_append, filter_isNl_goQuote]
  decide

/-- C1: Newline preservation — every patch of the general deferred-fault
path of `fixError` replaces the removed text by exactly the line-break
characters of the removed text before the error offset, then a panic
statement embedding the diagnostic message, then the line-break characters
of the removed text after the offset; consequently the line-break count of
the replacement before the offset equals that of the removed text before
the offset (and likewise for the suffix, the panic statement itself
containing no line break). -/
theorem fixError_general_newline_preservation
    (m : OMap) (file : File) (filename : String) (content : List Char)
    (offset : Nat) (msg : List Char) (start e : Int) (tail : List Char)
    (hni : containsSeq msg msgUnusedImport = false)
    (hnv : containsSeq msg msgUnusedVar = false)
    (hna : containsSeq msg msgUselessAssign = false)
    (hr : findRangeToFix file content offset = some (start, e, tail))
    (hne : start ≠ e)
    (h1 : start ≤ (offset : Int)) (h2 : (offset : Int) ≤ e)
    (h3 : 0 ≤ start) (h4 : e ≤ (content.length : Int)) :
    fixError m file filename content offset msg =
      some (true, mapSet m filename
        (content.take start.toNat ++
          (newLinesInRange (sliceCC content start offset) ++ panicText msg ++
            newLinesInRange (sliceCC content offset e)) ++
          tail ++ content.drop e.toNat)) ∧
    countLineBreaks (newLinesInRange (sliceCC content start offset)) =
      countLineBreaks (sliceCC content start offset) ∧
    countLineBreaks (newLinesInRange (sliceCC content offset e)) =
      countLineBreaks (sliceCC content offset e) ∧
    countLineBreaks (panicText msg) = 0 := by
  refine ⟨?_, countLineBreaks_newLinesInRange _, countLineBreaks_newLinesInRange _,
    countLineBreaks_panicText _⟩
  simp only [fixError, hni, hnv, hna, hr, Bool.false_eq_true, if_false]
  rw [if_neg hne, if_neg (by omega), if_neg (by omega)]
  simp [update, List.append_assoc]

/-- C1 witness: the patch for `undefined: x` in `contentFG`. -/
theorem fixError_general_newline_preservation_inst :
    fixError [] fgFile "a.go" contentFG 26 ("undefined: x".toList) =
      some (true, mapSet [] "a.go"
        (contentFG.take 26 ++
          (newLinesInRange (sliceCC contentFG 26 26) ++
            panicText ("undefined: x".toList) ++
            newLinesInRange (sliceCC contentFG 26 28)) ++
          [] ++ contentFG.drop 28)) :=
  (fixError_general_newline_preservation [] fgFile "a.go" contentFG 26
    ("undefined: x".toList) 26 28 [] (by decide) (by decide) (by decide)
    (by decide) (by decide) (by decide) (by decide) (by decide) (by decide)).1

/-- C2: Range determinism — whenever `findEnclosing` locates a statement
and a block with a structurally valid closing brace, `findRangeToFix`
returns the range from the statement's start to the block's end excluding
the block's own closing brace, with an empty tail; the result depends only
on the located statement's position and the block's closing brace, not on
how many sibling statements precede the statement. -/
theorem findRangeToFix_valid_block
    (file : File) (content : List Char) (offset : Nat) (s b : Node)
    (fb : Option Node)
    (he : findEnclosing file (file.fileStart + offset) = (some s, some b, fb))
    (hv : rbValid b = true) :
    findRangeToFix file content offset =
      some (nodePos s - file.fileStart, nodeEnd b - file.fileStart - 1, []) ∧
    (∀ lb l rb, b = .blockStmt lb l (some rb) →
      nodeEnd b - file.fileStart - 1 = rb - file.fileStart) := by
  constructor
  · simp [findRangeToFix, he, hv]
  · rintro lb l rb rfl
    simp only [nodeEnd]
    omega

/-- C2 witness: the statement `x` inside `func f`'s valid block of
`contentFG`; the end equals the closing brace's offset. -/
theorem findRangeToFix_valid_block_inst :
    findRangeToFix fgFile contentFG 26 = some (26, 28, []) ∧
    nodeEnd (Node.blockStmt 24 [Node.stmt 27 28 [Node.ident 27 28]] (some 29)) -
      fgFile.fileStart - 1 = 29 - fgFile.fileStart := by
  have h := findRangeToFix_valid_block fgFile contentFG 26
    (.stmt 27 28 [.ident 27 28])
    (.blockStmt 24 [.stmt 27 28 [.ident 27 28]] (some 29))
    (some (.blockStmt 24 [.stmt 27 28 [.ident 27 28]] (some 29)))
    rfl rfl
  exact ⟨by simpa using h.1, h.2 24 [Node.stmt 27 28 [Node.ident 27 28]] 29 rfl⟩

/-- The re-selected statement is the original one or a direct child of
the function body. -/
theorem reselect_mem (p : Int) (s : Node) (l : List Node) :
    reselect p s l = s ∨ reselect p s l ∈ l := by
  induction l generalizing s with
  | nil => exact Or.inl rfl
  | cons t rest ih =>
    simp only [reselect]
    split
    · rcases ih t with h | h
      · exact Or.inr (by simp [h])
      · exact Or.inr (List.mem_cons_of_mem _ h)
    · exact Or.inl rfl

/-- `frtfRest` cannot fault when a statement was located and every
candidate statement start lies strictly inside the content. -/
theorem frtfRest_ne_none
    (file : File) (content : List Char) (p : Int)
    (blk fnB : Option Node) (s0 : Node)
    (hs : 0 ≤ nodePos s0 - file.fileStart ∧
      nodePos s0 - file.fileStart < (content.length : Int))
    (hl : ∀ fb, fnB = some fb → ∀ t ∈ blockList fb,
      0 ≤ nodePos t - file.fileStart ∧
      nodePos t - file.fileStart < (content.length : Int)) :
    frtfRest file content p (some s0) blk fnB ≠ none := by
  cases fnB with
  | none => simp [frtfRest]
  | some fb =>
    have hmem :
        (if (match blk with | some b => nodeBEq b fb | none => false)
          then s0 else reselect p s0 (blockList fb)) = s0 ∨
        (if (match blk with | some b => nodeBEq b fb | none => false)
          then s0 else reselect p s0 (blockList fb)) ∈ blockList fb := by
      split
      · exact Or.inl rfl
      · exact reselect_mem p s0 (blockList fb)
    generalize hq :
      (if (match blk with | some b => nodeBEq b fb | none => false)
        then s0 else reselect p s0 (blockList fb)) = s1 at hmem
    have hbnd : 0 ≤ nodePos s1 - file.fileStart ∧
        nodePos s1 - file.fileStart < (content.length : Int) := by
      rcases hmem with h | h
      · rw [h]; exact hs
      · exact hl fb rfl s1 h
    have ht : (content.drop (nodePos s1 - file.fileStart).toNat).length ≠ 0 := by
      rw [List.length_drop]; omega
    simp only [frtfRest, hq]
    rw [if_neg (by omega)]
    repeat' split
    all_goals simp_all

/-- C9 counterexample: for the parsed file `contentEB` (an empty function
body with a valid closing brace) and the offset of the newline inside the
body, `findEnclosing` yields a block with a valid closing brace but no
statement, and `findRangeToFix` hits the nil statement dereference of its
first branch (modelled as `none`). -/
theorem findRangeToFix_empty_block_fault :
    findEnclosing ebFile (ebFile.fileStart + 26) =
      (none, some (.blockStmt 26 [] (some 28)), some (.blockStmt 26 [] (some 28))) ∧
    rbValid (Node.blockStmt 26 [] (some 28)) = true ∧
    findRangeToFix ebFile contentEB 26 = none :=
  ⟨rfl, rfl, rfl⟩

/-- C9 (amended): `findRangeToFix` returns without a runtime fault
whenever `findEnclosing` locates a statement (and, as in every parsed
file, the located statement and the function body's direct statements
start inside the content); the original claim fails because a valid block
with no located statement makes the first branch dereference nil. -/
theorem findRangeToFix_no_fault_with_stmt
    (file : File) (content : List Char) (offset : Nat)
    (s0 : Node) (blk fnB : Option Node)
    (he : findEnclosing file (file.fileStart + offset) = (some s0, blk, fnB))
    (hs : 0 ≤ nodePos s0 - file.fileStart ∧
      nodePos s0 - file.fileStart < (content.length : Int))
    (hl : ∀ fb, fnB = some fb → ∀ t ∈ blockList fb,
      0 ≤ nodePos t - file.fileStart ∧
      nodePos t - file.fileStart < (content.length : Int)) :
    findRangeToFix file content offset ≠ none := by
  simp only [findRangeToFix, he]
  cases blk with
  | none => exact frtfRest_ne_none file content _ none fnB s0 hs hl
  | some b =>
    by_cases hv : rbValid b
    · simp [hv]
    · simp only [hv, Bool.false_eq_true, if_false]
      exact frtfRest_ne_none file content _ (some b) fnB s0 hs hl

/-- C9 witness: on `contentFG` at the offset of `x` the hypotheses hold
and `findRangeToFix` indeed does not fault. -/
theorem findRangeToFix_no_fault_with_stmt_inst :
    findRangeToFix fgFile contentFG 26 ≠ none :=
  findRangeToFix_no_fault_with_stmt fgFile contentFG 26
    (.stmt 27 28 [.ident 27 28])
    (some (.blockStmt 24 [.stmt 27 28 [.ident 27 28]] (some 29)))
    (some (.blockStmt 24 [.stmt 27 28 [.ident 27 28]] (some 29)))
    rfl (by decide)
    (by intro fb hfb
        cases hfb
        decide)

/-- C4 counterexample: on the repository's own `noclosebrace` fixture the
forward scan finds no boundary, yet the range ends at offset 45 = length
minus one, not at end of file (46); so "the boundary found by the forward
scan or end-of-file" is wrong for the no-boundary case. -/
theorem findRangeToFix_eof_cex :
    findRangeToFix ncFile contentNC 39 = some (27, 45, ['\x7d']) ∧
    fwdScan (contentNC.drop 27) false = none ∧
    (45 : Int) ≠ (contentNC.length : Int) :=
  ⟨rfl, rfl, by decide⟩

/-- C4 (amended): when the located block has no valid closing brace, the
forward scan finds no closing brace (at most a declaration/comment
boundary) and the backward scan finds no line-closing brace,
`findRangeToFix` returns the range from the (re-selected) statement's
start to the boundary found by the forward scan — or to one byte before
end of file when the forward scan finds nothing — together with a literal
closing brace as the tail to insert after the replacement text. -/
theorem findRangeToFix_synth_brace
    (file : File) (content : List Char) (offset : Nat)
    (s0 fb : Node) (blk : Option Node)
    (he : findEnclosing file (file.fileStart + offset) = (some s0, blk, some fb))
    (hnb : ∀ b, blk = some b → rbValid b = false)
    (s1 : Node)
    (hs1 : (if (match blk with | some b => nodeBEq b fb | none => false)
        then s0
        else reselect (file.fileStart + offset) s0 (blockList fb)) = s1)
    (hb : 0 ≤ nodePos s1 - file.fileStart ∧
      nodePos s1 - file.fileStart ≤ (content.length : Int))
    (hne : content.drop (nodePos s1 - file.fileStart).toNat ≠ [])
    (eStar : Nat)
    (heStar : (match fwdScan (content.drop (nodePos s1 - file.fileStart).toNat) false with
       | some e => e
       | none => (content.drop (nodePos s1 - file.fileStart).toNat).length - 1) = eStar)
    (hnotbrace : ∀ e,
      fwdScan (content.drop (nodePos s1 - file.fileStart).toNat) false = some e →
      (content.drop (nodePos s1 - file.fileStart).toNat).get? e ≠ some '\x7d')
    (hback : backScanRev
      (((content.drop (nodePos s1 - file.fileStart).toNat).take eStar).reverse)
      false = none) :
    findRangeToFix file content offset =
      some (nodePos s1 - file.fileStart,
        (nodePos s1 - file.fileStart) + (eStar : Int), ['\x7d']) := by
  have hrest : frtfRest file content (file.fileStart + offset)
      (some s0) blk (some fb) =
      some (nodePos s1 - file.fileStart,
        (nodePos s1 - file.fileStart) + (eStar : Int), ['\x7d']) := by
    simp only [frtfRest, hs1]
    rw [if_neg (by omega)]
    cases hfs : fwdScan (content.drop (nodePos s1 - file.fileStart).toNat) false with
    | some e =>
      rw [hfs] at heStar
      subst heStar
      simp only
      rw [if_neg (hnotbrace e hfs), hback]
      simp
    | none =>
      rw [hfs] at heStar
      subst heStar
      simp only
      rw [if_neg (by have := List.length_pos.mpr hne
                     simp only [List.length_drop] at this ⊢
                     omega), hback]
      simp
  simp only [findRangeToFix, he]
  cases blk with
  | none => simpa using hrest
  | some b =>
    have hv := hnb b rfl
    simp only [hv, Bool.false_eq_true, if_false]
    simpa using hrest

/-- C4 witness: the synthesized-brace case on the `noclosebrace` fixture,
derived through the amended theorem. -/
theorem findRangeToFix_synth_brace_inst :
    findRangeToFix ncFile contentNC 39 = some (27, 27 + (18 : Int), ['\x7d']) := by
  have h := findRangeToFix_synth_brace ncFile contentNC 39
    (.stmt 28 45 []) (.blockStmt 26 [.stmt 28 45 []] none)
    (some (.blockStmt 26 [.stmt 28 45 []] none))
    rfl
    (by intro b hb
        cases hb
        rfl)
    (.stmt 28 45 []) rfl (by decide) (by decide)
    18 (by decide)
    (by intro e hfs
        rw [show fwdScan (contentNC.drop ((nodePos (Node.stmt 28 45 []) -
          ncFile.fileStart).toNat)) false = none from rfl] at hfs
        cases hfs)
    (by decide)
  simpa using h

/-- C3 counterexample: for `contentIM` (`import foo "fmt"`) at an offset
inside the entry's explicit local name, `fixUnusedImport` does not delete
the name leaving the default-derived name: it writes the 2-character
discard marker over the name and the byte after it, producing
`import _ "fmt"`, which differs from both readings of name deletion. -/
theorem fixUnusedImport_blank_cex :
    fixUnusedImport [] imFile "a.go" contentIM 21 =
      some (true, [("a.go", contentIMFixed)]) ∧
    contentIMFixed ≠ contentIM.take 21 ++ contentIM.drop 24 ∧
    contentIMFixed ≠ contentIM.take 21 ++ contentIM.drop 25 ∧
    contentIMFixed.get? 21 = some '_' ∧ contentIM.get? 21 = some 'f' :=
  ⟨rfl, by decide, by decide, rfl, rfl⟩

/-- C3 (amended): for an offset covered by an import declaration's import
entry, `fixUnusedImport` replaces the entry's explicit local name plus the
single byte following it by the 2-character discard marker `"_ "` (when an
explicit name exists), or inserts exactly the 2-character discard marker
before the path (when none exists); in either case the bytes before the
insertion point and after the replaced span are unchanged. -/
theorem fixUnusedImport_discard
    (m : OMap) (file : File) (filename : String) (content : List Char)
    (offset : Nat) (gp ge : Int) (specs : List ImportSpec) (sp : ImportSpec)
    (hd : file.decls.find?
        (fun d => nodePos d ≤ file.fileStart + offset ∧
          file.fileStart + offset ≤ nodeEnd d) =
      some (.genDecl .timport gp ge specs))
    (hsp : specs.find?
        (fun sp => specPos sp ≤ file.fileStart + offset ∧
          file.fileStart + offset ≤ specEnd sp) = some sp)
    (ip dl : Int)
    (hip : ip = (match sp.name with
      | some (np, _) => np - file.fileStart
      | none => sp.pathPos - file.fileStart))
    (hdl : dl = (match sp.name with
      | some (np, ne) => ne - np + 1
      | none => 0))
    (hb : 0 ≤ ip ∧ ip + dl ≤ (content.length : Int)) (hdl0 : 0 ≤ dl) :
    fixUnusedImport m file filename content offset =
      some (true, mapSet m filename
        (content.take ip.toNat ++ ['_', ' '] ++ content.drop (ip + dl).toNat)) ∧
    (content.take ip.toNat ++ ['_', ' '] ++
      content.drop (ip + dl).toNat).take ip.toNat = content.take ip.toNat ∧
    (content.take ip.toNat ++ ['_', ' '] ++
      content.drop (ip + dl).toNat).drop (ip.toNat + 2) =
      content.drop (ip + dl).toNat := by
  have hlen : (content.take ip.toNat).length = ip.toNat := by
    rw [List.length_take]
    omega
  refine ⟨?_, ?_, ?_⟩
  · simp only [fixUnusedImport, hd, hsp]
    rcases hname : sp.name with _ | ⟨np, ne⟩
    · simp only [hname] at hip hdl ⊢
      subst hip
      subst hdl
      split
      · rename_i hcond
        exact absurd rfl hcond
      · simp only [update]
        split
        · rename_i hcond
          exact absurd hcond (by omega)
        · simp
    · simp only [hname] at hip hdl ⊢
      subst hip
      subst hdl
      split
      · rename_i hcond
        exact absurd rfl hcond
      · simp only [update]
        split
        · rename_i hcond
          exact absurd hcond (by omega)
        · simp
  · rw [List.append_assoc]
    exact List.take_left' hlen
  · have h2 : (content.take ip.toNat ++ ['_', ' ']).length = ip.toNat + 2 := by
      rw [List.length_append, hlen]
      rfl
    exact List.drop_left' h2

/-- C3 witness: the explicit-name entry of `contentIM`, derived through
the amended theorem. -/
theorem fixUnusedImport_discard_inst :
    fixUnusedImport [] imFile "a.go" contentIM 21 =
      some (true, mapSet [] "a.go"
        (contentIM.take 21 ++ ['_', ' '] ++ contentIM.drop 25)) := by
  have h := (fixUnusedImport_discard [] imFile "a.go" contentIM 21
    15 31 [⟨some (22, 25), 26, 31⟩] ⟨some (22, 25), 26, 31⟩
    rfl rfl 21 4 (by decide) (by decide) (by decide)
    (by decide)).1
  simpa using h

/-- C10: Atomicity of `fixError` — whenever it returns `false` the overlay
map is unchanged; whenever it returns `true` exactly the entry for the
given filename is written (present afterwards) and every other entry is
unchanged.  This covers all return paths: the three structural micro-fixes
and the general deferred-fault path. -/
theorem fixError_atomic
    (m : OMap) (file : File) (filename : String) (content : List Char)
    (offset : Nat) (msg : List Char) (b : Bool) (m' : OMap)
    (h : fixError m file filename content offset msg = some (b, m')) :
    (b = false → m' = m) ∧
    (b = true → (∃ v, mapGet m' filename = some v) ∧
      ∀ k, k ≠ filename → mapGet m' k = mapGet m k) := by
  have hd : (b = false ∧ m' = m) ∨
      (b = true ∧ ∃ v, m' = mapSet m filename v) := by
    simp only [fixError, fixUnusedImport, fixUnusedVar, fixUselessAssignment,
      update] at h
    repeat' split at h
    all_goals cases h
    all_goals
      first
        | exact Or.inl ⟨rfl, rfl⟩
        | exact Or.inr ⟨rfl, _, rfl⟩
  rcases hd with ⟨hb, hm⟩ | ⟨hb, v, hm⟩
  · subst hb
    subst hm
    exact ⟨fun _ => rfl, fun hc => absurd hc (by simp)⟩
  · subst hb
    subst hm
    refine ⟨fun hc => absurd hc (by simp),
      fun _ => ⟨⟨v, mapGet_mapSet_self m filename v⟩, ?_⟩⟩
    intro k hk
    exact mapGet_mapSet_ne m filename k v hk

/-- C10 witness: the patch of `contentFG` writes exactly the `a.go` entry
and leaves any other key's (absent) binding unchanged. -/
theorem fixError_atomic_inst :
    (∃ v, mapGet [("a.go", contentFG1)] "a.go" = some v) ∧
    ∀ k, k ≠ "a.go" → mapGet [("a.go", contentFG1)] k = mapGet [] k :=
  (fixError_atomic [] fgFile "a.go" contentFG 26 ("undefined: x".toList)
    true [("a.go", contentFG1)] rfl).2 rfl

/-- The attempt count of `parseFileAux` never exceeds `max 1 fuel`. -/
theorem parseFileAux_le (parse : List Char → ParseOut) (fn : String) :
    ∀ fuel m content, (parseFileAux parse fn fuel m content).2 ≤ max 1 fuel := by
  intro fuel
  induction fuel with
  | zero => intro m c; simp [parseFileAux]
  | succ fuel ih =>
    intro m c
    simp only [parseFileAux]
    cases hp : (parse c).perr with
    | none => simp
    | some errs =>
      cases errs with
      | nil => simp
      | cons e rest =>
        by_cases hf : fuel = 0
        · simp [hf]
        · simp only [hf, if_false]
          cases hfx : fixError m (parse c).file fn c e.offset e.msg with
          | none => simp
          | some bm =>
            obtain ⟨bb, mm⟩ := bm
            cases bb
            · simp
            · simp only []
              have := ih mm ((mapGet mm fn).getD [])
              simp only [Nat.max_eq_right (by omega : 1 ≤ fuel)] at this
              simp
              omega

/-- C6: FixpointParser termination — `Fixer.parseFile` performs at most
10 parse attempts for every parse oracle, overlay and content; it stops
after one attempt when the parse succeeds, and stops surfacing the parse
error when `fixError` applies no fix. -/
theorem parseFile_attempt_bound
    (parse : List Char → ParseOut) (filename : String) (m : OMap)
    (content : List Char) :
    (parseFileRun parse filename m content).2 ≤ 10 ∧
    ((parse content).perr = none →
      parseFileRun parse filename m content = (.ok (parse content).file m, 1)) ∧
    (∀ e rest m', (parse content).perr = some (e :: rest) →
      fixError m (parse content).file filename content e.offset e.msg =
        some (false, m') →
      parseFileRun parse filename m content =
        (.fail (parse content).file (e :: rest) m', 1)) := by
  refine ⟨?_, ?_, ?_⟩
  · have h := parseFileAux_le parse filename 10 m content
    simpa [parseFileRun] using h
  · intro hp
    rw [parseFileRun, show (10 : Nat) = 9 + 1 from rfl]
    simp [parseFileAux, hp]
  · intro e rest m' hp hfx
    rw [parseFileRun, show (10 : Nat) = 9 + 1 from rfl]
    simp [parseFileAux, hp, hfx]

/-- A parse oracle that always succeeds with `fgFile`. -/
def parseOkOracle : List Char → ParseOut := fun _ => ⟨fgFile, none⟩

/-- A parse oracle that always fails with an unfixable error (offset 0
lies outside any function body of `ebFile`). -/
def parseFailOracle : List Char → ParseOut :=
  fun _ => ⟨ebFile, some [⟨0, ['x']⟩]⟩

/-- C6 witness: a successful first parse stops after one attempt with the
overlay untouched, and an unfixable parse error surfaces after one
attempt. -/
theorem parseFile_attempt_bound_inst :
    parseFileRun parseOkOracle "a.go" [] contentFG = (.ok fgFile [], 1) ∧
    parseFileRun parseFailOracle "a.go" [] contentEB =
      (.fail ebFile [⟨0, ['x']⟩] [], 1) :=
  ⟨(parseFile_attempt_bound parseOkOracle "a.go" [] contentFG).2.1 rfl,
   (parseFile_attempt_bound parseFailOracle "a.go" [] contentEB).2.2
     ⟨0, ['x']⟩ [] [] rfl rfl⟩

/-- C5 counterexample: a compilation unit reporting two type errors in one
pass gets exactly one `fixError` application, on the first error only —
the pass result equals that of the same unit reporting only its first
error, and the second error's code region stays byte-identical to the
input — refuting "applied once per observed type error of that unit". -/
theorem fixPkg_second_error_cex :
    pkgFG2.typeErrors.length = 2 ∧
    fixPkg envFG pkgFG2 [] = fixPkg envFG pkgFG1 [] ∧
    fixPkg envFG pkgFG2 [] = .ok (true, [("a.go", contentFG1)]) ∧
    contentFG1.drop 48 = contentFG.drop 28 :=
  ⟨rfl, rfl, rfl, by decide⟩

/-- C5 (amended): in each pass of `Fixer.Fix`, `fixError` is applied for
at most one type error per compilation unit — the first reported one (the
pass result depends only on it); full passes repeat until a pass produces
no fix, bounded by 10 passes. -/
theorem fixPkg_first_error_only :
    (∀ env pkg m, fixPkg env pkg m =
      fixPkg env { pkg with typeErrors := pkg.typeErrors.take 1 } m) ∧
    (∀ env load m, (fixRun env load m).2 ≤ 10) ∧
    (∀ env load m pkgs m1 m2, load m = (pkgs, m1) →
      fixPkgs env pkgs false m1 = .ok (false, m2) →
      fixRun env load m = (.ok m2, 1)) := by
  refine ⟨?_, ?_, ?_⟩
  · intro env pkg m
    obtain ⟨syn, tes⟩ := pkg
    cases tes <;> rfl
  · intro env load m
    have h : ∀ fuel m, (fixLoop env load fuel m).2 ≤ fuel := by
      intro fuel
      induction fuel with
      | zero => intro m; simp [fixLoop]
      | succ fuel ih =>
        intro m
        simp only [fixLoop]
        cases hfp : fixPkgs env (load m).1 false (load m).2 with
        | ioErr => simp
        | fault => simp
        | ok bm =>
          obtain ⟨fixed, m2⟩ := bm
          cases fixed
          · simp
          · simp only [Bool.true_eq_false, if_true]
            have := ih m2
            simp
            omega
    exact h 10 m
  · intro env load m pkgs m1 m2 hl hfp
    rw [fixRun, show (10 : Nat) = 9 + 1 from rfl]
    simp [fixLoop, hl, hfp]

/-- C5 witness: the first-error-only equation at the two-error package,
and the one-pass stop for a load that reports a clean package over a
nonempty overlay. -/
theorem fixPkg_first_error_only_inst :
    fixPkg envFG pkgFG2 [] =
      fixPkg envFG { pkgFG2 with typeErrors := pkgFG2.typeErrors.take 1 } [] ∧
    fixRun envFG (fun m => ([{ syntax_ := [fgFile], typeErrors := [] }], m))
      [("b.go", ['x'])] = (.ok [("b.go", ['x'])], 1) :=
  ⟨(fixPkg_first_error_only).1 envFG pkgFG2 [],
   (fixPkg_first_error_only).2.2 envFG
     (fun m => ([{ syntax_ := [fgFile], typeErrors := [] }], m))
     [("b.go", ['x'])] _ _ _ rfl rfl⟩

/-- All-clean packages produce no fix and leave the overlay unchanged. -/
theorem fixPkgs_clean (env : Env) :
    ∀ pkgs m, (∀ p ∈ pkgs, p.typeErrors = []) →
      fixPkgs env pkgs false m = .ok (false, m) := by
  intro pkgs
  induction pkgs with
  | nil => intro m _; rfl
  | cons p rest ih =>
    intro m h
    have hp : p.typeErrors = [] := h p (by simp)
    simp only [fixPkgs, fixPkg, hp]
    exact ih m (fun q hq => h q (by simp [hq]))

/-- C7: Idempotence on valid input — when loading reports no type errors
and leaves the overlay unchanged (as a successful parse does: second
conjunct), `Fixer.Fix` stops after one pass with the overlay exactly as it
started, adding no entries. -/
theorem fix_idempotent_on_valid :
    (∀ env load m0 pkgs, load m0 = (pkgs, m0) →
      (∀ p ∈ pkgs, p.typeErrors = []) →
      fixRun env load m0 = (.ok m0, 1)) ∧
    (∀ (parse : List Char → ParseOut) fn m c, (parse c).perr = none →
      parseFileRun parse fn m c = (.ok (parse c).file m, 1)) := by
  constructor
  · intro env load m0 pkgs hl hcl
    rw [fixRun, show (10 : Nat) = 9 + 1 from rfl]
    simp [fixLoop, hl, fixPkgs_clean env pkgs m0 hcl]
  · intro parse fn m c hp
    rw [parseFileRun, show (10 : Nat) = 9 + 1 from rfl]
    simp [parseFileAux, hp]

/-- A load oracle reporting one clean package and not touching the
overlay. -/
def loadClean : OMap → List Pkg × OMap :=
  fun m => ([{ syntax_ := [fgFile], typeErrors := [] }], m)

/-- C7 witness: a clean load leaves the empty overlay empty after one
pass, and an already-parsing file is parsed once without touching the
overlay. -/
theorem fix_idempotent_on_valid_inst :
    fixRun envFG loadClean [] = (.ok [], 1) ∧
    parseFileRun parseOkOracle "b.go" [("k", [])] contentEB =
      (.ok fgFile [("k", [])], 1) :=
  ⟨(fix_idempotent_on_valid).1 envFG loadClean [] _ rfl
    (by intro p hp
        rw [List.mem_singleton] at hp
        subst hp
        rfl),
   (fix_idempotent_on_valid).2 parseOkOracle "b.go" [("k", [])] contentEB rfl⟩

/-- One marking pass grows the attempted set (strictly for a nonempty
report), keeps it duplicate-free, and only adds names from the report. -/
theorem markScan_spec :
    ∀ (l att att' : List String), markScan att l = some att' →
      (∀ x ∈ att, x ∈ att') ∧
      att.length + (if l = [] then 0 else 1) ≤ att'.length ∧
      (att.Nodup → att'.Nodup) ∧
      (∀ x ∈ att', x ∈ att ∨ x ∈ l) := by
  intro l
  induction l with
  | nil =>
    intro att att' h
    simp only [markScan, Option.some.injEq] at h
    subst h
    simp
  | cons p rest ih =>
    intro att att' h
    simp only [markScan] at h
    split at h
    · cases h
    · rename_i hp
      obtain ⟨h1, h2, h3, h4⟩ := ih (p :: att) att' h
      refine ⟨fun x hx => h1 x (by simp [hx]), ?_, ?_, ?_⟩
      · simp only [List.length_cons] at h2
        split at h2 <;> simp <;> omega
      · intro hnd
        exact h3 (List.nodup_cons.mpr ⟨hp, hnd⟩)
      · intro x hx
        rcases h4 x hx with hx' | hx'
        · rcases List.mem_cons.mp hx' with h' | h'
          · exact Or.inr (by simp [h'])
          · exact Or.inl h'
        · exact Or.inr (by simp [hx'])

/-- A duplicate-free list of names drawn from `S` is no longer than
`S`. -/
theorem nodup_subset_length (l S : List String) (hn : l.Nodup)
    (hs : ∀ x ∈ l, x ∈ S) : l.length ≤ S.length := by
  have h1 : l.toFinset.card = l.length := List.toFinset_card_of_nodup hn
  have h2 : l.toFinset ⊆ S.toFinset := by
    intro x hx
    simp only [List.mem_toFinset] at hx ⊢
    exact hs x hx
  have h4 := Finset.card_le_card h2
  have h3 : S.toFinset.card ≤ S.length := S.toFinset_card_le
  omega

/-- C8: BuildLoop termination and give-up — for reports drawn from a
finite set of unit names the `Prepare` loop never exhausts fuel
`|S| + 1 - |attempted|` (each iteration marks at least one new name, and
each name is marked at most once); the loop exits as `givenUp` as soon as
a nonempty report contains an already-attempted unit; and with `built`
false, `Run` re-invokes the real toolchain with no overlay. -/
theorem prepare_termination_giveup :
    (∀ (S : List String) (reports : Nat → List String),
      (∀ i, ∀ p ∈ reports i, p ∈ S) →
      ∀ fuel i att, att.Nodup → (∀ p ∈ att, p ∈ S) →
        S.length + 1 ≤ fuel + att.length →
        prepareRun reports fuel i att ≠ .timedOut) ∧
    (∀ (reports : Nat → List String) fuel i att, reports i ≠ [] →
      markScan att (reports i) = none →
      prepareRun reports (fuel + 1) i att = .givenUp) ∧
    (∀ mode bA rA ov exe,
      runGo false mode bA rA ov exe = .realGo (mode :: (bA ++ rA))) := by
  refine ⟨?_, ?_, ?_⟩
  · intro S reports hrep fuel
    induction fuel with
    | zero =>
      intro i att hnd hsub hlen
      exfalso
      have := nodup_subset_length att S hnd hsub
      omega
    | succ fuel ih =>
      intro i att hnd hsub hlen
      simp only [prepareRun]
      by_cases hre : reports i = []
      · simp [hre]
      · simp only [hre, if_false]
        cases hms : markScan att (reports i) with
        | none => simp
        | some att' =>
          simp only []
          obtain ⟨h1, h2, h3, h4⟩ := markScan_spec (reports i) att att' hms
          apply ih (i + 1) att' (h3 hnd)
          · intro p hp
            rcases h4 p hp with h' | h'
            · exact hsub p h'
            · exact hrep i p h'
          · have hgrow : att.length + 1 ≤ att'.length := by
              simpa [hre] using h2
            omega
  · intro reports fuel i att hne hms
    simp [prepareRun, hne, hms]
  · intro mode bA rA ov exe
    rfl

/-- C8 witness: a constant report stream from the name set
`["p1", "p2"]` terminates within the name-count bound, a repeated unit
causes give-up, and an unbuilt runner re-runs the genuine toolchain. -/
theorem prepare_termination_giveup_inst :
    prepareRun (fun _ => ["p1"]) 3 0 [] ≠ .timedOut ∧
    prepareRun (fun _ => ["p1"]) 2 1 ["p1"] = .givenUp ∧
    runGo false "run" ["main.go"] ["arg"] none "/tmp/exe" =
      .realGo ("run" :: (["main.go"] ++ ["arg"])) := by
  refine ⟨?_, ?_, ?_⟩
  · exact (prepare_termination_giveup).1 ["p1", "p2"] (fun _ => ["p1"])
      (by intro i p hp
          rw [List.mem_singleton] at hp
          subst hp
          decide)
      3 0 [] (by decide) (by intro p hp; cases hp) (by decide)
  · exact (prepare_termination_giveup).2.1 (fun _ => ["p1"]) 1 1 ["p1"]
      (by decide) rfl
  · exact (prepare_termination_giveup).2.2 "run" ["main.go"] ["arg"]
      none "/tmp/exe"

end Golo
